import Mathlib

/-
Verification of the OSM-PBF layer-parsing pipeline (`read.py`).

The development shallowly embeds the core of the repository:
  * `parse_other_tags`   (tag-string decoder, read.py lines 321-331)
  * `format_single_geometry` (single-geometry formatter, lines 334-343)
  * `format_multi_geometries` (multi-geometry formatter, lines 346-353)
  * `parse_layer_data`   (layer normalizer, lines 318-365)
  * `parse_osm_pbf`      (extract orchestrator, lines 263-314)
  * `read_osm_pbf`       (public entry point, lines 369-380)

Strings are modelled as `List Char`, Python exceptions as `Option`/`Except`
failure, Python dicts as insertion-ordered association lists with
last-write-wins update, and the GeoJSON-style coordinate payloads as a small
inductive `Payload` type whose leaves are positions.  Python's `re.split`,
`re.sub`, `str.split`, `str.replace`, `str.lstrip` and set/dict semantics are
reproduced character by character.
-/

set_option autoImplicit false

universe u v

/-- Prepend a character to the first block of a block list; Python's string
splitting helpers are phrased with this. -/
def consHead (c : Char) : List (List Char) → List (List Char)
  | [] => [[c]]
  | t :: ts => (c :: t) :: ts

/-- Left-to-right effectful map into `Option`, mirroring a Python loop or
comprehension in which the first raised exception aborts the whole
computation. -/
def mapO {α : Type u} {β : Type v} (f : α → Option β) : List α → Option (List β)
  | [] => some []
  | x :: xs =>
    match f x with
    | none => none
    | some y =>
      match mapO f xs with
      | none => none
      | some ys => some (y :: ys)

/-- Left-to-right effectful map into `Except`, mirroring a Python loop in
which the first raised exception aborts the whole computation. -/
def mapE {ε α β : Type} (f : α → Except ε β) : List α → Except ε (List β)
  | [] => Except.ok []
  | x :: xs =>
    match f x with
    | Except.error e => Except.error e
    | Except.ok y =>
      match mapE f xs with
      | Except.error e => Except.error e
      | Except.ok ys => Except.ok (y :: ys)

/-- Concatenate a list of lists (a nested Python comprehension
`[e for xs in xss for e in xs]`). -/
def catList {α : Type u} : List (List α) → List α
  | [] => []
  | l :: ls => l ++ catList ls

/-- First-some choice on options; used to express "the last binding wins" in
Python dict comprehensions. -/
def oor {α : Type u} (a b : Option α) : Option α :=
  match a with
  | some v => some v
  | none => b

/-- The double-quote character, written once for readability. -/
def qc : Char := '"'

/-- Model of `re.split((?<="),(?=")', x)` with the scanning state being the
previously consumed character: a comma is a separator exactly when the
character before it and the character after it are both `"`. -/
def sqbAux (prev : Option Char) : List Char → List (List Char)
  | [] => [[]]
  | c :: rest =>
    if c = ',' ∧ prev = some qc ∧ rest.head? = some qc then
      [] :: sqbAux (some ',') rest
    else
      consHead c (sqbAux (some c) rest)

/-- Split a tag blob at quote-boundary commas (read.py line 327). -/
def sqb (s : List Char) : List (List Char) := sqbAux none s

/-- Drop one leading double quote if present. -/
def dropLeadQ : List Char → List Char
  | [] => []
  | c :: t => if c = qc then t else c :: t

/-- Drop one trailing double quote if present. -/
def dropTrailQ (l : List Char) : List Char :=
  match l.getLast? with
  | some c => if c = qc then l.dropLast else l
  | none => l

/-- Model of `re.sub('^"|"$', '', s)`: remove one leading and one trailing
literal quote (read.py line 327). -/
def stripQ (l : List Char) : List Char := dropTrailQ (dropLeadQ l)

/-- Model of Python `s.split('"=>"')`: split on each non-overlapping
occurrence of the four-character separator, scanning left to right
(read.py line 328). -/
def splitSep : List Char → List (List Char)
  | [] => [[]]
  | '"' :: '=' :: '>' :: '"' :: rest => [] :: splitSep rest
  | c :: rest => consHead c (splitSep rest)

/-- Model of Python `v.replace('<br>', ' ')`: replace each non-overlapping
occurrence of `<br>` by a single space, scanning left to right
(read.py line 328). -/
def replBr : List Char → List Char
  | [] => []
  | '<' :: 'b' :: 'r' :: '>' :: rest => ' ' :: replBr rest
  | c :: rest => c :: replBr rest

/-- A decoded tag mapping: an insertion-ordered list of key/value pairs. -/
abbrev TagMap := List (List Char × List Char)

/-- Decode one stripped tag segment: `seg.split('"=>"')` must produce exactly
a key and a value, otherwise Python's tuple unpacking raises `ValueError`
(read.py line 328). The `<br>` substitution is applied to the value. -/
def pairOfSeg (seg : List Char) : Except Unit (List Char × List Char) :=
  match splitSep seg with
  | [k, v] => Except.ok (k, replBr v)
  | _ => Except.error ()

/-- CPython dict insertion: an existing key keeps its position and gets the
new value, a new key is appended. -/
def pyInsert (m : TagMap) (k v : List Char) : TagMap :=
  if m.any (fun kv => decide (kv.1 = k)) then
    m.map (fun kv => if kv.1 = k then (kv.1, v) else kv)
  else
    m ++ [(k, v)]

/-- CPython dict built from a pair sequence: later pairs overwrite earlier
ones (the semantics of the dict comprehension in read.py line 328). -/
def pyDict (ps : TagMap) : TagMap :=
  ps.foldl (fun m kv => pyInsert m kv.1 kv.2) []

/-- Decode a non-null tag blob into its raw pair sequence: split at
quote-boundary commas, strip one quote from each end of every segment, and
split each segment on `"=>"` into exactly two parts, raising (modelled by
`Except.error`) on any segment that does not. -/
def decodeBlob (s : List Char) : Except Unit TagMap :=
  mapE pairOfSeg ((sqb s).map stripQ)

/-- Embedding of `parse_other_tags` (read.py lines 321-331): `None` maps to
`None`; otherwise the blob is decoded segment-wise (with `<br>` in values
replaced by a space) and the pairs are collected into a dict, later pairs
overwriting earlier ones. -/
def parse_other_tags (x : Option (List Char)) : Except Unit (Option TagMap) :=
  match x with
  | none => Except.ok none
  | some s => (decodeBlob s).map (fun ps => some (pyDict ps))

/-- Lookup in a (unique-keyed) decoded mapping: first entry with the key. -/
def dictLookup (k : List Char) (m : TagMap) : Option (List Char) :=
  (m.find? (fun kv => decide (kv.1 = k))).map (fun kv => kv.2)

/-- Value of the last pair carrying key `k` in a raw pair list. -/
def lastLookup (k : List Char) : TagMap → Option (List Char)
  | [] => none
  | kv :: ps => oor (lastLookup k ps) (if kv.1 = k then some kv.2 else none)

/-- Re-encode one pair under the tag-string convention: `"key"=>"value"`. -/
def encodePair (kv : List Char × List Char) : List Char :=
  qc :: (kv.1 ++ qc :: '=' :: '>' :: qc :: (kv.2 ++ [qc]))

/-- Re-encode a pair list as a tag blob: pairs joined by commas. -/
def encode : TagMap → List Char
  | [] => []
  | [kv] => encodePair kv
  | kv :: rest => encodePair kv ++ ',' :: encode rest

/-- Apply the `<br>`-to-space substitution to every value of a pair list. -/
def brMap (ps : TagMap) : TagMap := ps.map (fun kv => (kv.1, replBr kv.2))

/-- A key/value pair whose encoding the decoder's grammar can represent: no
embedded quote characters, and neither side is the one-character string `,`
(whose comma would sit exactly at a quote boundary in the blob). -/
def validKV (kv : List Char × List Char) : Prop :=
  qc ∉ kv.1 ∧ qc ∉ kv.2 ∧ kv.1 ≠ [','] ∧ kv.2 ≠ [',']

instance (kv : List Char × List Char) : Decidable (validKV kv) := by
  unfold validKV; infer_instance

/-- The quote-boundary scan of `sqbAux` finds no separator comma in this
list when it starts from state `prev` (and whatever follows the list does not
begin with a quote). -/
def cleanB (prev : Option Char) : List Char → Prop
  | [] => True
  | c :: rest => ¬(c = ',' ∧ prev = some qc ∧ rest.head? = some qc) ∧ cleanB (some c) rest

/-- The scanning state after consuming a list: its last character, or the
incoming state when the list is empty. -/
def lastPrev (prev : Option Char) : List Char → Option Char
  | [] => prev
  | c :: rest => lastPrev (some c) rest

/-- A typed geometry value per standard simple-feature semantics (the
`shapely.geometry` values the formatters construct). A polygon is recorded by
its shell ring, the only form the pipeline builds (`Polygon(l)` with a single
ring argument); a multi-polygon by the shells of its member polygons. -/
inductive Geometry : Type where
  | point : Int × Int → Geometry
  | lineString : List (Int × Int) → Geometry
  | multiLineString : List (List (Int × Int)) → Geometry
  | polygon : List (Int × Int) → Geometry
  | multiPolygon : List (List (Int × Int)) → Geometry
  | geometryCollection : List Geometry → Geometry

/-- A coordinate payload as handed to a geometry constructor: a position
leaf (a GeoJSON `[x, y]` pair), a nested array, or an already-constructed
geometry object (`MultiPolygon` receives `Polygon` objects in read.py
line 340). -/
inductive Payload : Type where
  | pos : Int × Int → Payload
  | list : List Payload → Payload
  | geom : Geometry → Payload

/-- Read a payload as a position; anything else makes the constructor raise. -/
def asPos : Payload → Option (Int × Int)
  | Payload.pos p => some p
  | _ => none

/-- Read a payload as a flat sequence of positions. -/
def asPosList (p : Payload) : Option (List (Int × Int)) :=
  match p with
  | Payload.list l => mapO asPos l
  | _ => none

/-- The items of a payload, when it is an array; iterating anything else
raises in Python. -/
def payloadItems : Payload → Option (List Payload)
  | Payload.list l => some l
  | _ => none

/-- Constructor for `Point`: requires a single position. -/
def mkPoint (p : Payload) : Option Geometry :=
  (asPos p).map Geometry.point

/-- Constructor for `LineString`: a sequence of positions, empty or of
length at least two (simple-feature validity, enforced by shapely). -/
def mkLineString (p : Payload) : Option Geometry :=
  match asPosList p with
  | none => none
  | some ps => if ps.length = 0 ∨ 2 ≤ ps.length then some (Geometry.lineString ps) else none

/-- Constructor for `MultiLineString`: a sequence of position sequences. -/
def mkMultiLineString (p : Payload) : Option Geometry :=
  match p with
  | Payload.list ls =>
    match mapO asPosList ls with
    | none => none
    | some lss =>
      if ∀ l ∈ lss, l.length = 0 ∨ 2 ≤ l.length then some (Geometry.multiLineString lss) else none
  | _ => none

/-- Constructor for `Polygon`: a single shell ring given as a flat sequence
of positions, empty or of length at least three (a `LinearRing` needs at
least 3 coordinate tuples). -/
def mkPolygon (p : Payload) : Option Geometry :=
  match asPosList p with
  | none => none
  | some ps => if ps.length = 0 ∨ 3 ≤ ps.length then some (Geometry.polygon ps) else none

/-- Read a payload item as an already-constructed polygon object. -/
def asPolygonGeom : Payload → Option (List (Int × Int))
  | Payload.geom (Geometry.polygon shell) => some shell
  | _ => none

/-- Constructor for `MultiPolygon`: a sequence of constructed `Polygon`
objects (the only form the pipeline passes to it). -/
def mkMultiPolygon (p : Payload) : Option Geometry :=
  match p with
  | Payload.list items => (mapO asPolygonGeom items).map Geometry.multiPolygon
  | _ => none

/-- Read a payload item as a constructed geometry object. -/
def asGeom : Payload → Option Geometry
  | Payload.geom g => some g
  | _ => none

/-- Constructor for `GeometryCollection`: a sequence of geometry objects. -/
def mkGeometryCollection (p : Payload) : Option Geometry :=
  match p with
  | Payload.list items => (mapO asGeom items).map Geometry.geometryCollection
  | _ => none

/-- Layer and type names used by the pipeline. -/
def nPoint : List Char := ("Point").toList

/-- The `LineString` type name. -/
def nLineString : List Char := ("LineString").toList

/-- The `MultiLineString` type name. -/
def nMultiLineString : List Char := ("MultiLineString").toList

/-- The `Polygon` type name. -/
def nPolygon : List Char := ("Polygon").toList

/-- The `MultiPolygon` type name. -/
def nMultiPolygon : List Char := ("MultiPolygon").toList

/-- The `GeometryCollection` type name. -/
def nGeometryCollection : List Char := ("GeometryCollection").toList

/-- The `other_relations` layer name. -/
def nOtherRelations : List Char := ("other_relations").toList

/-- Modelled from the spec: `osm_geom_types` lives in the repository's
`utils` module, which is not among the provided sources; spec section 4.2
describes it as a fixed mapping from geometry-type name to geometry
constructor covering exactly Point, LineString, MultiLineString, Polygon,
MultiPolygon and GeometryCollection. A lookup of any other name is a Python
`KeyError`, modelled by `none`. -/
def osm_geom_types (name : List Char) : Option (Payload → Option Geometry) :=
  if name = nPoint then some mkPoint
  else if name = nLineString then some mkLineString
  else if name = nMultiLineString then some mkMultiLineString
  else if name = nPolygon then some mkPolygon
  else if name = nMultiPolygon then some mkMultiPolygon
  else if name = nGeometryCollection then some mkGeometryCollection
  else none

/-- The fixed geometry-type vocabulary of the dispatch table. -/
def geomVocab : List (List Char) :=
  [nPoint, nLineString, nMultiLineString, nPolygon, nMultiPolygon, nGeometryCollection]

/-- Model of Python `s.lstrip('Multi')`: drop every leading character that
belongs to the character set of `'Multi'` (read.py line 338). -/
def lstripMulti (s : List Char) : List Char :=
  s.dropWhile (fun c => c = 'M' ∨ c = 'u' ∨ c = 'l' ∨ c = 't' ∨ c = 'i')

/-- Model of Python `list(set(xs))` for a list of strings. CPython's set
iteration order is implementation defined; the model fixes the
first-occurrence order, which the code does not control either. -/
def pySetList (xs : List (List Char)) : List (List Char) :=
  xs.foldl (fun acc x => if x ∈ acc then acc else acc ++ [x]) []

/-- The `MultiPolygon` special case of the single-geometry formatter
(read.py lines 338-340): `geom_type_func(sub_geom_type_func(l) for ls in x
for l in ls)` flattens the payload one level, builds one polygon per
ring-group, and hands the constructed polygons to the outer constructor. -/
def mpFlatten (sub ctor : Payload → Option Geometry) (x : Payload) : Option Geometry :=
  match payloadItems x with
  | none => none
  | some outer =>
    match mapO payloadItems outer with
    | none => none
    | some inners =>
      match mapO sub (catList inners) with
      | none => none
      | some polys => ctor (Payload.list (polys.map Payload.geom))

/-- Embedding of `format_single_geometry` (read.py lines 334-343): pick
`list(set(geom_type column))[0]` (an `IndexError` on an empty batch), look
its constructor up in the dispatch table (a `KeyError` for an unknown name),
and map the constructor over the coordinate column, with the extra
one-level flattening when the picked name is exactly `MultiPolygon`. -/
def format_single_geometry (rows : List (List Char × Payload)) : Option (List Geometry) :=
  (pySetList (rows.map Prod.fst)).head?.bind (fun gt =>
    (osm_geom_types gt).bind (fun ctor =>
      if gt = nMultiPolygon then
        (osm_geom_types (lstripMulti gt)).bind (fun sub =>
          mapO (fun r => mpFlatten sub ctor r.2) rows)
      else
        mapO (fun r => ctor r.2) rows))

/-- A geometry descriptor of an `other_relations` row: a type tag together
with its own coordinate payload. -/
structure GeomDesc : Type where
  type : List Char
  coordinates : Payload

/-- Substring test on character lists (Python's `in` on strings). -/
def hasSub (pat : List Char) : List Char → Bool
  | [] => pat.isEmpty
  | c :: rest => pat.isPrefixOf (c :: rest) || hasSub pat rest

/-- Flatten a payload one level: `(pt for pts in coords for pt in pts)`
(read.py line 351); iterating a non-array payload raises. -/
def flattenOne (x : Payload) : Option (List Payload) :=
  match x with
  | Payload.list outer => (mapO payloadItems outer).map catList
  | _ => none

/-- Construct the geometry of one descriptor (read.py lines 349-352): look
the constructor up by the descriptor's type name, and when that name
contains `Polygon` flatten the payload one level before constructing. -/
def descGeom (d : GeomDesc) : Option Geometry :=
  (osm_geom_types d.type).bind (fun ctor =>
    if hasSub nPolygon d.type then
      (flattenOne d.coordinates).bind (fun flat => ctor (Payload.list flat))
    else
      ctor d.coordinates)

/-- Embedding of `format_multi_geometries` (read.py lines 346-353): build
one geometry per descriptor and wrap them into a geometry collection. -/
def format_multi_geometries (geometries : List GeomDesc) : Option Geometry :=
  (mapO descGeom geometries).map Geometry.geometryCollection

/-- One raw feature record of a layer batch, as the external reader exposes
it: the `other_tags` property blob (possibly null), the geometry type tag,
the coordinate payload, and (for relation rows) the sub-geometry
descriptors. -/
structure Feat : Type where
  other_tags : Option (List Char)
  geom_type : List Char
  coordinates : Payload
  geometries : List GeomDesc

/-- One row of a normalized layer table: decoded tags (null for a null
blob), the geometry type tag, and the constructed geometry value. -/
structure Row : Type where
  other_tags : Option TagMap
  geom_type : List Char
  geometry : Geometry

/-- Embedding of `parse_layer_data` (read.py lines 318-365): join the
property and geometry sub-structures positionally, decode the tag column
(an undecodable blob raises out of the whole call), then format the
geometry column: the multi-geometry formatter for `other_relations`, the
single-geometry formatter otherwise. Any raised error aborts the layer,
modelled by `none`. -/
def parse_layer_data (dat : List Feat) (geo_typ : List Char) : Option (List Row) :=
  match mapO (fun f => (parse_other_tags f.other_tags).toOption) dat with
  | none => none
  | some tags =>
    if geo_typ = nOtherRelations then
      match mapO (fun f => format_multi_geometries f.geometries) dat with
      | none => none
      | some geoms => some (List.zipWith3 (fun f t g => Row.mk t f.geom_type g) dat tags geoms)
    else
      match format_single_geometry (dat.map (fun f => (f.geom_type, f.coordinates))) with
      | none => none
      | some geoms => some (List.zipWith3 (fun f t g => Row.mk t f.geom_type g) dat tags geoms)

/-- A raw layer as drained from the reader: its name and its features. -/
abbrev LayerRaw := List Char × List Feat

/-- The two failure classes the orchestrator's message distinguishes. -/
inductive PbfErr : Type where
  | fileMissing : PbfErr
  | parseFailure : PbfErr
deriving DecidableEq

/-- The message computed at read.py line 310: the caught exception when the
file exists, `os.strerror(errno.ENOENT)` when it does not. -/
def errKind (fileExists : Bool) : PbfErr :=
  if fileExists then PbfErr.parseFailure else PbfErr.fileMissing

/-- Embedding of `parse_osm_pbf` (read.py lines 284-314). The external
binary reader is modelled by its outcome: either opening fails, or it yields
a sequence of per-layer reads each of which may itself raise mid-drain. The
whole try-block is guarded by one `except` that prints the distinguishing
message and yields `None`; on success the function returns the dictionary of
all drained layers. The result pairs the returned dataset with the emitted
error message, if any. -/
def parse_osm_pbf (fileExists : Bool)
    (openRes : Except Unit (List (Except Unit LayerRaw))) :
    Option (List LayerRaw) × Option PbfErr :=
  match openRes with
  | Except.error _ => (none, some (errKind fileExists))
  | Except.ok steps =>
    match mapE (fun s => s) steps with
    | Except.error _ => (none, some (errKind fileExists))
    | Except.ok layers => (some layers, none)

/-- Embedding of `read_osm_pbf` (read.py lines 369-380): call
`parse_osm_pbf`, then iterate `osm_data.items()` — when the dataset is the
null failure value this is `None.items()` and raises `AttributeError`
(modelled by `Except.error`) — and normalize every layer, any layer error
propagating out. -/
def read_osm_pbf (fileExists : Bool)
    (openRes : Except Unit (List (Except Unit LayerRaw))) :
    Except Unit (List (List Char × List Row)) :=
  match (parse_osm_pbf fileExists openRes).1 with
  | none => Except.error ()
  | some layers =>
    mapE (fun nl =>
      match parse_layer_data nl.2 nl.1 with
      | none => Except.error ()
      | some rows => Except.ok (nl.1, rows)) layers

/-- If some list member maps to `none`, the whole effectful map fails. -/
theorem mapO_none_of_mem {α : Type u} {β : Type v} (f : α → Option β) {l : List α} {x : α}
    (hx : x ∈ l) (hf : f x = none) : mapO f l = none := by
  induction l with
  | nil => cases hx
  | cons y ys ih =>
    rcases List.mem_cons.mp hx with h | h
    · subst h; simp [mapO, hf]
    · cases hfy : f y with
      | none => simp [mapO, hfy]
      | some a => simp [mapO, hfy, ih h]

/-- If every member maps to `some`, the effectful map succeeds and preserves
length. -/
theorem mapO_length_of_isSome {α : Type u} {β : Type v} (f : α → Option β) :
    ∀ l : List α, (∀ x ∈ l, (f x).isSome) → (mapO f l).map List.length = some l.length := by
  intro l
  induction l with
  | nil => intro _; rfl
  | cons y ys ih =>
    intro h
    obtain ⟨a, ha⟩ := Option.isSome_iff_exists.mp (h y (List.mem_cons_self _ _))
    have hys := ih (fun x hx => h x (List.mem_cons_of_mem _ hx))
    cases hbs : mapO f ys with
    | none => rw [hbs] at hys; simp at hys
    | some bs =>
      rw [hbs] at hys
      have hlen : bs.length = ys.length := by simpa using hys
      simp [mapO, ha, hbs, hlen]

/-- Mapping `asPos` over wrapped positions recovers the positions. -/
theorem mapO_asPos_map : ∀ ps : List (Int × Int), mapO asPos (ps.map Payload.pos) = some ps := by
  intro ps
  induction ps with
  | nil => rfl
  | cons p ps ih => simp [mapO, asPos, ih]

/-- The effectful map distributes over appending. -/
theorem mapO_append {α : Type u} {β : Type v} (f : α → Option β) :
    ∀ l1 l2 : List α,
      mapO f (l1 ++ l2) = (mapO f l1).bind (fun a => (mapO f l2).map (fun b => a ++ b)) := by
  intro l1
  induction l1 with
  | nil =>
    intro l2
    simp [mapO]
  | cons x xs ih =>
    intro l2
    cases hfx : f x with
    | none => simp [mapO, hfx]
    | some a =>
      cases hxs : mapO f xs with
      | none => simp [mapO, hfx, hxs, ih]
      | some as =>
        cases hl2 : mapO f l2 with
        | none => simp [mapO, hfx, hxs, hl2, ih]
        | some bs => simp [mapO, hfx, hxs, hl2, ih]

/-- Draining a list of already-successful reads succeeds with exactly those
values. -/
theorem mapE_id_of_ok {ε α : Type} :
    ∀ ys : List α, mapE (fun s => s) (ys.map (Except.ok : α → Except ε α)) = Except.ok ys := by
  intro ys
  induction ys with
  | nil => rfl
  | cons y ys ih => simp [mapE, ih]

/-- A successful drain of fallible reads means every read succeeded. -/
theorem mapE_id_ok_inv {ε α : Type} :
    ∀ (steps : List (Except ε α)) (ys : List α),
      mapE (fun s => s) steps = Except.ok ys → steps = ys.map Except.ok := by
  intro steps
  induction steps with
  | nil =>
    intro ys h
    simp only [mapE] at h
    injection h with h
    subst h
    rfl
  | cons s ss ih =>
    intro ys h
    cases s with
    | error e => simp [mapE] at h
    | ok a =>
      cases hss : mapE (fun s => s) ss with
      | error e => rw [show mapE (fun s => s) (Except.ok a :: ss) = Except.error e by simp [mapE, hss]] at h; cases h
      | ok as =>
        rw [show mapE (fun s => s) (Except.ok a :: ss) = Except.ok (a :: as) by simp [mapE, hss]] at h
        injection h with h
        subst h
        simp [ih as hss]

/-- Inserting into a set-list keeps the head and non-emptiness. -/
theorem pySetList_foldl_head :
    ∀ (l : List (List Char)) (acc : List (List Char)), acc ≠ [] →
      (List.foldl (fun acc x => if x ∈ acc then acc else acc ++ [x]) acc l).head? = acc.head? ∧
      List.foldl (fun acc x => if x ∈ acc then acc else acc ++ [x]) acc l ≠ [] := by
  intro l
  induction l with
  | nil => intro acc h; exact ⟨rfl, h⟩
  | cons x xs ih =>
    intro acc h
    by_cases hx : x ∈ acc
    · simpa [hx] using ih acc h
    · cases acc with
      | nil => cases h rfl
      | cons a acc' =>
        have := ih ((a :: acc') ++ [x]) (by simp)
        simpa [hx, List.cons_append] using this

/-- The first observed string heads the set-list of a batch. -/
theorem pySetList_head (x : List Char) (xs : List (List Char)) :
    (pySetList (x :: xs)).head? = some x := by
  unfold pySetList
  have step1 : List.foldl (fun acc y => if y ∈ acc then acc else acc ++ [y]) [] (x :: xs)
      = List.foldl (fun acc y => if y ∈ acc then acc else acc ++ [y]) [x] xs := by
    simp
  rw [step1]
  exact (pySetList_foldl_head xs [x] (by simp)).1

/-- A name outside the fixed vocabulary misses the dispatch table. -/
theorem osm_geom_types_eq_none (name : List Char) (h : name ∉ geomVocab) :
    osm_geom_types name = none := by
  simp only [geomVocab, List.mem_cons, List.not_mem_nil, or_false, not_or] at h
  obtain ⟨h1, h2, h3, h4, h5, h6⟩ := h
  simp [osm_geom_types, h1, h2, h3, h4, h5, h6]

/-- When the picked type name is not `MultiPolygon`, the single-geometry
formatter is the plain constructor map. -/
theorem format_single_geometry_of_head (rows : List (List Char × Payload)) (gt : List Char)
    (ctor : Payload → Option Geometry)
    (h1 : (pySetList (rows.map Prod.fst)).head? = some gt)
    (h2 : osm_geom_types gt = some ctor) (h3 : gt ≠ nMultiPolygon) :
    format_single_geometry rows = mapO (fun r => ctor r.2) rows := by
  unfold format_single_geometry
  rw [h1]
  simp [h2, h3]

/-- When the picked type name is `MultiPolygon`, the single-geometry
formatter maps the flattening construction over the rows. -/
theorem format_single_geometry_mp (rows : List (List Char × Payload))
    (h1 : (pySetList (rows.map Prod.fst)).head? = some nMultiPolygon) :
    format_single_geometry rows = mapO (fun r => mpFlatten mkPolygon mkMultiPolygon r.2) rows := by
  unfold format_single_geometry
  rw [h1]
  rfl

/-- C8: for every subregion whose extract file cannot be opened or parsed,
`parse_osm_pbf` fails with a typed error distinguishing file-missing from
parse-failure and returns a null dataset, never a partially-filled per-layer
mapping — a returned dataset means every layer read succeeded, and any
failure yields `none` together with the distinguishing message. -/
theorem parse_osm_pbf_all_or_nothing (fe : Bool)
    (openRes : Except Unit (List (Except Unit LayerRaw))) :
    (∀ layers, (parse_osm_pbf fe openRes).1 = some layers ↔
      openRes = Except.ok (layers.map Except.ok)) ∧
    ((parse_osm_pbf fe openRes).1 = none ↔
      (parse_osm_pbf fe openRes).2 = some (errKind fe)) ∧
    errKind false = PbfErr.fileMissing ∧ errKind true = PbfErr.parseFailure ∧
    PbfErr.fileMissing ≠ PbfErr.parseFailure := by
  refine ⟨?_, ?_, rfl, rfl, by decide⟩
  · intro layers
    cases openRes with
    | error e => simp [parse_osm_pbf]
    | ok steps =>
      cases hm : mapE (fun s => s) steps with
      | error e =>
        have hp : (parse_osm_pbf fe (Except.ok steps)).1 = none := by
          simp [parse_osm_pbf, hm]
        rw [hp]
        constructor
        · intro h; cases h
        · intro h
          injection h with h2
          rw [h2, mapE_id_of_ok] at hm
          cases hm
      | ok ls =>
        have hp : (parse_osm_pbf fe (Except.ok steps)).1 = some ls := by
          simp [parse_osm_pbf, hm]
        rw [hp]
        constructor
        · intro h
          injection h with h2
          subst h2
          exact congrArg _ (mapE_id_ok_inv steps ls hm)
        · intro h
          injection h with h2
          rw [h2, mapE_id_of_ok] at hm
          injection hm with h3
          rw [h3]
  · cases openRes with
    | error e => simp [parse_osm_pbf]
    | ok steps =>
      cases hm : mapE (fun s => s) steps with
      | error e => simp [parse_osm_pbf, hm]
      | ok ls => simp [parse_osm_pbf, hm]

/-- C9 (implicit): whenever `parse_osm_pbf` returns the null dataset,
`read_osm_pbf` does not itself return that null value — it raises
(`None.items()` is an `AttributeError`, modelled by `Except.error`), so its
callers never observe the documented null-dataset failure value. -/
theorem read_osm_pbf_never_null (fe : Bool)
    (openRes : Except Unit (List (Except Unit LayerRaw)))
    (d : List (List Char × List Row))
    (h : (parse_osm_pbf fe openRes).1 = none) :
    read_osm_pbf fe openRes = Except.error () ∧ read_osm_pbf fe openRes ≠ Except.ok d := by
  have he : read_osm_pbf fe openRes = Except.error () := by
    unfold read_osm_pbf
    rw [h]
  refine ⟨he, ?_⟩
  rw [he]
  intro hc
  cases hc

/-- Witness for C9 at a concrete failing open. -/
theorem read_osm_pbf_never_null_witness :
    (parse_osm_pbf false (Except.error ())).1 = none ∧
    (read_osm_pbf false (Except.error ()) = Except.error () ∧
      read_osm_pbf false (Except.error ()) ≠ Except.ok []) :=
  ⟨rfl, read_osm_pbf_never_null false (Except.error ()) [] rfl⟩

/-- C7: a geometry-type name outside the fixed vocabulary makes any
dispatch-path lookup fail — the single-geometry formatter on a batch whose
observed type is that name, and the multi-geometry formatter on any
descriptor list containing that name, both halt with an error (`none`) and
never pass the unrecognized value through. -/
theorem unknown_geom_type_halts (name : List Char) (hn : name ∉ geomVocab) :
    (∀ coords rows, format_single_geometry ((name, coords) :: rows) = none) ∧
    (∀ ds1 ds2 coords,
      format_multi_geometries (ds1 ++ GeomDesc.mk name coords :: ds2) = none) := by
  have h0 := osm_geom_types_eq_none name hn
  constructor
  · intro coords rows
    unfold format_single_geometry
    have hh : (pySetList (((name, coords) :: rows).map Prod.fst)).head? = some name := by
      rw [List.map_cons]
      exact pySetList_head _ _
    rw [hh]
    simp [h0]
  · intro ds1 ds2 coords
    unfold format_multi_geometries
    have hd : descGeom (GeomDesc.mk name coords) = none := by
      unfold descGeom
      rw [h0]
      rfl
    rw [mapO_none_of_mem descGeom (l := ds1 ++ GeomDesc.mk name coords :: ds2)
      (x := GeomDesc.mk name coords) (by simp) hd]
    rfl

/-- Witness for C7 at the concrete unknown name `Garbage`. -/
theorem unknown_geom_type_halts_witness :
    format_single_geometry [((("Garbage").toList), Payload.pos (0, 0))] = none ∧
    format_multi_geometries [GeomDesc.mk (("Garbage").toList) (Payload.pos (0, 0))] = none :=
  ⟨(unknown_geom_type_halts (("Garbage").toList) (by decide)).1 (Payload.pos (0, 0)) [],
   (unknown_geom_type_halts (("Garbage").toList) (by decide)).2 [] [] (Payload.pos (0, 0))⟩

/-- C5 (amended): the tag-string decoder maps null to null and a non-null
input never to null — but the empty string is not mapped to an empty
mapping: it raises the malformed-tag error. -/
theorem parse_other_tags_null_behaviour :
    parse_other_tags none = Except.ok none ∧
    (∀ s : List Char, parse_other_tags (some s) ≠ Except.ok none) ∧
    parse_other_tags (some []) = Except.error () := by
  refine ⟨rfl, ?_, rfl⟩
  intro s h
  have hs : parse_other_tags (some s) = (decodeBlob s).map (fun ps => some (pyDict ps)) := rfl
  rw [hs] at h
  cases hm : decodeBlob s with
  | error e => rw [hm] at h; simp [Except.map] at h
  | ok ps => rw [hm] at h; simp [Except.map] at h

/-- C5 counterexample: the empty string, a non-null input, is not decoded to
a (possibly empty) mapping — the decoder raises, contradicting the claim
that every non-null input yields a mapping. -/
theorem parse_other_tags_empty_blob_raises :
    parse_other_tags (some []) = Except.error () := rfl

/-- C4 (amended): a row whose tag blob fails to decode aborts
`parse_layer_data` for the whole layer — the error is not row-scoped, no
table is returned at all. -/
theorem malformed_tag_aborts_layer (dat : List Feat) (geo_typ : List Char) (f : Feat)
    (hmem : f ∈ dat) (herr : parse_other_tags f.other_tags = Except.error ()) :
    parse_layer_data dat geo_typ = none := by
  have hm : mapO (fun g => (parse_other_tags g.other_tags).toOption) dat = none := by
    apply mapO_none_of_mem _ hmem
    rw [herr]
    rfl
  unfold parse_layer_data
  rw [hm]

/-- Witness for C4's amended claim at a concrete malformed blob. -/
theorem malformed_tag_aborts_layer_witness :
    parse_layer_data [Feat.mk (some (("bad").toList)) nPoint (Payload.pos (0, 0)) []]
      (("points").toList) = none :=
  malformed_tag_aborts_layer _ _
    (Feat.mk (some (("bad").toList)) nPoint (Payload.pos (0, 0)) [])
    (List.mem_singleton.mpr rfl) rfl

/-- C4 counterexample: with a malformed middle row, `parse_layer_data`
returns no table at all (the claim demands the offending row be skipped and
the remaining rows be returned); the same batch without the malformed row
parses fine, showing the abort is caused precisely by that row. -/
theorem malformed_tag_not_row_scoped :
    parse_layer_data
        [Feat.mk (some (("\"a\"=>\"b\"").toList)) nPoint (Payload.pos (0, 0)) [],
         Feat.mk (some (("oops").toList)) nPoint (Payload.pos (1, 1)) [],
         Feat.mk none nPoint (Payload.pos (2, 2)) []] (("points").toList) = none ∧
    parse_layer_data
        [Feat.mk (some (("\"a\"=>\"b\"").toList)) nPoint (Payload.pos (0, 0)) [],
         Feat.mk none nPoint (Payload.pos (2, 2)) []] (("points").toList)
      = some [Row.mk (some [((['a']), (['b']))]) nPoint (Geometry.point (0, 0)),
              Row.mk none nPoint (Geometry.point (2, 2))] := by
  constructor <;> rfl

/-- C1 (amended): on a batch with two or more distinct `geom_type` values,
the formatter raises no heterogeneity error — it picks one observed type
(set iteration order; first occurrence in this model) and silently produces
a full table whenever that type's constructor accepts every row's payload. -/
theorem heterogeneous_batch_silent (rows : List (List Char × Payload)) (gt : List Char)
    (ctor : Payload → Option Geometry)
    (h1 : (pySetList (rows.map Prod.fst)).head? = some gt)
    (h2 : osm_geom_types gt = some ctor)
    (h3 : gt ≠ nMultiPolygon)
    (h4 : ∀ r ∈ rows, (ctor r.2).isSome) :
    (format_single_geometry rows).map List.length = some rows.length := by
  rw [format_single_geometry_of_head rows gt ctor h1 h2 h3]
  exact mapO_length_of_isSome _ rows h4

/-- Witness for C1's amended claim on a two-type batch. -/
theorem heterogeneous_batch_silent_witness :
    (format_single_geometry
        [(nLineString, Payload.list []), (nMultiLineString, Payload.list [])]).map List.length
      = some 2 :=
  heterogeneous_batch_silent _ nLineString mkLineString rfl rfl (by decide) (by decide)

/-- C1 counterexample: a batch with two distinct `geom_type` values is
processed without any error — the formatter silently selects one observed
type and returns a well-formed table, where the claim demands a
`HeterogeneousLayerType` failure. -/
theorem heterogeneous_batch_counterexample :
    (pySetList
        ([(nLineString, Payload.list []), (nMultiLineString, Payload.list [])].map Prod.fst)).length
      = 2 ∧
    format_single_geometry [(nLineString, Payload.list []), (nMultiLineString, Payload.list [])]
      = some [Geometry.lineString [], Geometry.lineString []] :=
  ⟨rfl, rfl⟩

/-- A payload listing wrapped positions is read back as those positions by
the polygon constructor, subject to the ring-size condition. -/
theorem mkPolygon_map_pos (ps : List (Int × Int))
    (h : ps.length = 0 ∨ 3 ≤ ps.length) :
    mkPolygon (Payload.list (ps.map Payload.pos)) = some (Geometry.polygon ps) := by
  have h0 : asPosList (Payload.list (ps.map Payload.pos)) = some ps := by
    unfold asPosList
    exact mapO_asPos_map ps
  unfold mkPolygon
  rw [h0]
  exact if_pos h

/-- C3: for a MultiPolygon-layer coordinate payload of the two-level nested
form `[[ring_group_1], [ring_group_2]]`, the single-geometry formatter
flattens exactly one level and produces exactly one multi-polygon containing
exactly two polygons, one per ring-group. -/
theorem multipolygon_flatten_one_level (ps1 ps2 : List (Int × Int))
    (h1 : ps1.length = 0 ∨ 3 ≤ ps1.length) (h2 : ps2.length = 0 ∨ 3 ≤ ps2.length) :
    format_single_geometry [(nMultiPolygon,
        Payload.list [Payload.list [Payload.list (ps1.map Payload.pos)],
                      Payload.list [Payload.list (ps2.map Payload.pos)]])]
      = some [Geometry.multiPolygon [ps1, ps2]] := by
  rw [format_single_geometry_mp [(nMultiPolygon,
        Payload.list [Payload.list [Payload.list (ps1.map Payload.pos)],
                      Payload.list [Payload.list (ps2.map Payload.pos)]])] rfl]
  have hflat : mpFlatten mkPolygon mkMultiPolygon
      (Payload.list [Payload.list [Payload.list (ps1.map Payload.pos)],
                     Payload.list [Payload.list (ps2.map Payload.pos)]])
      = some (Geometry.multiPolygon [ps1, ps2]) := by
    unfold mpFlatten
    simp [payloadItems, mapO, catList, mkPolygon_map_pos ps1 h1, mkPolygon_map_pos ps2 h2,
      mkMultiPolygon, asPolygonGeom]
  simp [mapO, hflat]

/-- Witness for C3 at two concrete three-point ring-groups. -/
theorem multipolygon_flatten_one_level_witness :
    format_single_geometry [(nMultiPolygon,
        Payload.list [Payload.list [Payload.list ([((0 : Int), (0 : Int)), (1, 0), (0, 1)].map Payload.pos)],
                      Payload.list [Payload.list ([((2 : Int), (2 : Int)), (3, 2), (2, 3)].map Payload.pos)]])]
      = some [Geometry.multiPolygon [[(0, 0), (1, 0), (0, 1)], [(2, 2), (3, 2), (2, 3)]]] :=
  multipolygon_flatten_one_level _ _ (by decide) (by decide)

/-- C2 (amended): a `Polygon` descriptor whose single-level payload holds
two ring-groups contributes exactly one geometry to the row's collection — a
single polygon whose shell is the flattened concatenation of the two
ring-groups' points — not two separate polygons. -/
theorem polygon_descriptor_single_flattened (ds1 ds2 : List GeomDesc)
    (gs1 gs2 : List Geometry) (ps1 ps2 : List (Int × Int))
    (h1 : mapO descGeom ds1 = some gs1) (h2 : mapO descGeom ds2 = some gs2)
    (hr : (ps1 ++ ps2).length = 0 ∨ 3 ≤ (ps1 ++ ps2).length) :
    format_multi_geometries
        (ds1 ++ GeomDesc.mk nPolygon
          (Payload.list [Payload.list (ps1.map Payload.pos),
                         Payload.list (ps2.map Payload.pos)]) :: ds2)
      = some (Geometry.geometryCollection (gs1 ++ Geometry.polygon (ps1 ++ ps2) :: gs2)) := by
  have hstep : descGeom (GeomDesc.mk nPolygon
      (Payload.list [Payload.list (ps1.map Payload.pos), Payload.list (ps2.map Payload.pos)]))
      = (flattenOne (Payload.list [Payload.list (ps1.map Payload.pos),
          Payload.list (ps2.map Payload.pos)])).bind
        (fun flat => mkPolygon (Payload.list flat)) := rfl
  have hflatten : flattenOne (Payload.list [Payload.list (ps1.map Payload.pos),
      Payload.list (ps2.map Payload.pos)])
      = some (ps1.map Payload.pos ++ ps2.map Payload.pos) := by
    unfold flattenOne
    simp [mapO, payloadItems, catList]
  have hd : descGeom (GeomDesc.mk nPolygon
      (Payload.list [Payload.list (ps1.map Payload.pos), Payload.list (ps2.map Payload.pos)]))
      = some (Geometry.polygon (ps1 ++ ps2)) := by
    rw [hstep, hflatten]
    show mkPolygon (Payload.list (ps1.map Payload.pos ++ ps2.map Payload.pos))
      = some (Geometry.polygon (ps1 ++ ps2))
    rw [← List.map_append]
    exact mkPolygon_map_pos _ hr
  have hcons : mapO descGeom (GeomDesc.mk nPolygon
      (Payload.list [Payload.list (ps1.map Payload.pos), Payload.list (ps2.map Payload.pos)]) :: ds2)
      = some (Geometry.polygon (ps1 ++ ps2) :: gs2) := by
    simp [mapO, hd, h2]
  unfold format_multi_geometries
  rw [mapO_append]
  simp [h1, hcons]

/-- Witness for C2's amended claim: one point descriptor followed by the
two-ring-group polygon descriptor. -/
theorem polygon_descriptor_single_flattened_witness :
    format_multi_geometries
        [GeomDesc.mk nPoint (Payload.pos (9, 9)),
         GeomDesc.mk nPolygon
          (Payload.list [Payload.list ([((0 : Int), (0 : Int)), (1, 0), (0, 1)].map Payload.pos),
                         Payload.list ([((5 : Int), (5 : Int)), (6, 5), (5, 6)].map Payload.pos)])]
      = some (Geometry.geometryCollection
          [Geometry.point (9, 9), Geometry.polygon [(0, 0), (1, 0), (0, 1), (5, 5), (6, 5), (5, 6)]]) :=
  polygon_descriptor_single_flattened [GeomDesc.mk nPoint (Payload.pos (9, 9))] []
    [Geometry.point (9, 9)] [] _ _ rfl rfl (by decide)

/-- C2 counterexample: a `Polygon` descriptor carrying two ring-groups
yields a collection with exactly one geometry — a single polygon built from
all six flattened points — whereas the claim demands two separate polygon
geometries inside the collection. -/
theorem polygon_descriptor_counterexample :
    format_multi_geometries
        [GeomDesc.mk nPolygon
          (Payload.list [Payload.list [Payload.pos (0, 0), Payload.pos (1, 0), Payload.pos (0, 1)],
                         Payload.list [Payload.pos (5, 5), Payload.pos (6, 5), Payload.pos (5, 6)]])]
      = some (Geometry.geometryCollection
          [Geometry.polygon [(0, 0), (1, 0), (0, 1), (5, 5), (6, 5), (5, 6)]]) := rfl

/-- A separator-free list is returned whole by the quote-boundary scan. -/
theorem sqbAux_clean : ∀ (s : List Char) (prev : Option Char),
    cleanB prev s → sqbAux prev s = [s] := by
  intro s
  induction s with
  | nil => intro prev _; rfl
  | cons c rest ih =>
    intro prev hc
    obtain ⟨h1, h2⟩ := hc
    simp only [sqbAux]
    rw [if_neg h1, ih (some c) h2]
    rfl

/-- One unfolding step of the quote-boundary scan. -/
theorem sqbAux_cons (prev : Option Char) (c : Char) (rest : List Char) :
    sqbAux prev (c :: rest) =
      if c = ',' ∧ prev = some qc ∧ rest.head? = some qc then
        [] :: sqbAux (some ',') rest
      else
        consHead c (sqbAux (some c) rest) := rfl

/-- Scanning a separator-free list that ends in a quote, followed by a comma
and a quote, splits exactly at that comma. -/
theorem sqbAux_sep : ∀ (s : List Char) (prev : Option Char) (t : List Char),
    cleanB prev s → s.getLast? = some qc →
    sqbAux prev (s ++ ',' :: qc :: t) = s :: sqbAux (some ',') (qc :: t) := by
  intro s
  induction s with
  | nil => intro prev t _ hl; simp at hl
  | cons c rest ih =>
    intro prev t hc hl
    obtain ⟨h1, h2⟩ := hc
    cases rest with
    | nil =>
      have hcq : c = qc := by simpa using hl
      subst hcq
      rw [List.singleton_append, sqbAux_cons]
      rw [if_neg (fun hcond => absurd hcond.1 (by decide))]
      rw [sqbAux_cons, if_pos ⟨rfl, rfl, rfl⟩]
      rfl
    | cons c2 rest2 =>
      have hl' : (c2 :: rest2).getLast? = some qc := by
        rw [← List.getLast?_cons_cons (a := c)]
        exact hl
      rw [List.cons_append, sqbAux_cons]
      rw [if_neg (by simpa using h1)]
      rw [show c2 :: rest2 ++ ',' :: qc :: t = (c2 :: rest2) ++ ',' :: qc :: t from rfl]
      rw [ih (some c) t h2 hl']
      rfl

/-- The scanning state left by a quote-free list is never a quote. -/
theorem lastPrev_ne_qc : ∀ (w : List Char) (prev : Option Char),
    qc ∉ w → prev ≠ some qc → lastPrev prev w ≠ some qc := by
  intro w
  induction w with
  | nil => intro prev _ hp; exact hp
  | cons c rest ih =>
    intro prev hw _
    have hc : c ≠ qc := fun h => hw (h ▸ List.mem_cons_self c rest)
    exact ih (some c) (fun h => hw (List.mem_cons_of_mem _ h))
      (fun h => hc (Option.some.inj h))

/-- Scanning a quote-free stretch from a non-quote state finds no separator
in it and hands over the state of its last character. -/
theorem cleanB_qfree_append : ∀ (w : List Char) (prev : Option Char) (s : List Char),
    qc ∉ w → prev ≠ some qc → (cleanB prev (w ++ s) ↔ cleanB (lastPrev prev w) s) := by
  intro w
  induction w with
  | nil => intro prev s _ _; exact Iff.rfl
  | cons c rest ih =>
    intro prev s hw hp
    have hc : c ≠ qc := fun h => hw (h ▸ List.mem_cons_self c rest)
    have hrest : qc ∉ rest := fun h => hw (List.mem_cons_of_mem _ h)
    constructor
    · intro hcl
      obtain ⟨_, h2⟩ := hcl
      exact (ih (some c) s hrest (fun h => hc (Option.some.inj h))).mp h2
    · intro hcl
      refine ⟨fun hcond => hp hcond.2.1, ?_⟩
      exact (ih (some c) s hrest (fun h => hc (Option.some.inj h))).mpr hcl

/-- A quote character itself never triggers a split; it just updates the
scanning state. -/
theorem cleanB_qc_cons (prev : Option Char) (z : List Char) :
    cleanB prev (qc :: z) ↔ cleanB (some qc) z := by
  constructor
  · intro h; exact h.2
  · intro h; exact ⟨fun hcond => absurd hcond.1 (by decide), h⟩

/-- Scanning a quote-free key (not the lone comma) from a just-read-a-quote
state up to and including the next quote finds no separator. -/
theorem cleanB_key : ∀ (k z : List Char), qc ∉ k → k ≠ [','] →
    (cleanB (some qc) (k ++ qc :: z) ↔ cleanB (some qc) z) := by
  intro k
  induction k with
  | nil => intro z _ _; rw [List.nil_append]; exact cleanB_qc_cons _ z
  | cons c rest ih =>
    intro z hk hnc
    have hc : c ≠ qc := fun h => hk (h ▸ List.mem_cons_self c rest)
    have hrest : qc ∉ rest := fun h => hk (List.mem_cons_of_mem _ h)
    cases rest with
    | nil =>
      have hcc : c ≠ ',' := fun h => hnc (by rw [h])
      rw [List.cons_append, List.nil_append]
      constructor
      · intro h
        exact ((cleanB_qc_cons (some c) z).mp h.2)
      · intro h
        exact ⟨fun hcond => hcc hcond.1, (cleanB_qc_cons (some c) z).mpr h⟩
    | cons c2 rest2 =>
      have step : cleanB (some qc) ((c :: c2 :: rest2) ++ qc :: z) ↔
          cleanB (some c) ((c2 :: rest2) ++ qc :: z) := by
        constructor
        · intro h; exact h.2
        · intro h
          refine ⟨fun hcond => ?_, h⟩
          have hh : (c2 :: (rest2 ++ qc :: z)).head? = some qc := hcond.2.2
          have hc2 : c2 = qc := Option.some.inj (by simpa using hh)
          exact hrest (hc2 ▸ List.mem_cons_self c2 rest2)
      rw [step]
      have h2 : qc ∉ (c2 :: rest2) := hrest
      rw [cleanB_qfree_append (c2 :: rest2) (some c) (qc :: z) h2 (fun h => hc (Option.some.inj h))]
      have hlast := lastPrev_ne_qc (c2 :: rest2) (some c) h2 (fun h => hc (Option.some.inj h))
      constructor
      · intro h; exact h.2
      · intro h; exact ⟨fun hcond => hlast hcond.2.1, h⟩

/-- An encoded pair is separator-free for the quote-boundary scan, from any
incoming state. -/
theorem cleanB_encodePair (kv : List Char × List Char) (prev : Option Char)
    (hv : validKV kv) : cleanB prev (encodePair kv) := by
  obtain ⟨hk, hvq, hknc, hvnc⟩ := hv
  show cleanB prev (qc :: (kv.1 ++ qc :: '=' :: '>' :: qc :: (kv.2 ++ [qc])))
  rw [cleanB_qc_cons]
  rw [cleanB_key kv.1 _ hk hknc]
  refine ⟨fun hcond => absurd hcond.1 (by decide), ?_⟩
  refine ⟨fun hcond => absurd hcond.1 (by decide), ?_⟩
  rw [cleanB_qc_cons]
  rw [cleanB_key kv.2 [] hvq hvnc]
  trivial

/-- An encoded pair ends with a quote. -/
theorem encodePair_getLast (kv : List Char × List Char) :
    (encodePair kv).getLast? = some qc := by
  show (qc :: (kv.1 ++ qc :: '=' :: '>' :: qc :: (kv.2 ++ [qc]))).getLast? = some qc
  rw [show qc :: (kv.1 ++ qc :: '=' :: '>' :: qc :: (kv.2 ++ [qc]))
      = (qc :: kv.1 ++ qc :: '=' :: '>' :: qc :: kv.2) ++ [qc] by simp]
  exact List.getLast?_concat _

/-- Unfolding the encoder on a list of two or more pairs. -/
theorem encode_cons_cons (kv q : List Char × List Char) (rest : TagMap) :
    encode (kv :: q :: rest) = encodePair kv ++ ',' :: encode (q :: rest) := rfl

/-- An encoded non-empty blob starts with a quote. -/
theorem encode_cons_head (q : List Char × List Char) (rest : TagMap) :
    ∃ t, encode (q :: rest) = qc :: t := by
  cases rest with
  | nil => exact ⟨_, rfl⟩
  | cons r rest2 => exact ⟨_, rfl⟩

/-- The quote-boundary scan of an encoded valid blob recovers exactly the
encoded pairs, from any non-quote incoming state. -/
theorem sqbAux_encode : ∀ (ps : TagMap) (prev : Option Char), ps ≠ [] →
    (∀ kv ∈ ps, validKV kv) → sqbAux prev (encode ps) = ps.map encodePair := by
  intro ps
  induction ps with
  | nil => intro prev h _; cases h rfl
  | cons kv rest ih =>
    intro prev _ hv
    cases rest with
    | nil =>
      show sqbAux prev (encode [kv]) = _
      rw [show encode [kv] = encodePair kv from rfl]
      rw [sqbAux_clean (encodePair kv) prev
        (cleanB_encodePair kv prev (hv kv (List.mem_cons_self _ _)))]
      rfl
    | cons q rest2 =>
      rw [encode_cons_cons]
      obtain ⟨t, ht⟩ := encode_cons_head q rest2
      rw [ht]
      rw [sqbAux_sep (encodePair kv) prev t
        (cleanB_encodePair kv prev (hv kv (List.mem_cons_self _ _)))
        (encodePair_getLast kv)]
      rw [← ht]
      rw [ih (some ',') (by simp) (fun x hx => hv x (List.mem_cons_of_mem _ hx))]
      rfl

/-- Stripping one quote from each end of an encoded pair leaves
`key"=>"value`. -/
theorem stripQ_encodePair (kv : List Char × List Char) :
    stripQ (encodePair kv) = kv.1 ++ qc :: '=' :: '>' :: qc :: kv.2 := by
  have h1 : dropLeadQ (encodePair kv)
      = kv.1 ++ qc :: '=' :: '>' :: qc :: (kv.2 ++ [qc]) := by
    simp [encodePair, dropLeadQ]
  show dropTrailQ (dropLeadQ (encodePair kv)) = _
  rw [h1]
  rw [show kv.1 ++ qc :: '=' :: '>' :: qc :: (kv.2 ++ [qc])
      = (kv.1 ++ qc :: '=' :: '>' :: qc :: kv.2) ++ [qc] by simp]
  unfold dropTrailQ
  rw [List.getLast?_concat]
  show (if qc = qc then ((kv.1 ++ qc :: '=' :: '>' :: qc :: kv.2) ++ [qc]).dropLast
        else (kv.1 ++ qc :: '=' :: '>' :: qc :: kv.2) ++ [qc]) = _
  rw [if_pos rfl, List.dropLast_concat]

/-- A non-quote head character never starts a `"=>"` separator. -/
theorem splitSep_cons_ne (c : Char) (rest : List Char) (h : c ≠ qc) :
    splitSep (c :: rest) = consHead c (splitSep rest) := by
  rw [splitSep.eq_def]
  split
  · next heq => exact absurd heq (by simp)
  · next rest2 heq =>
    injection heq with h1 _
    exact absurd h1 h
  · next c2 rest2 heq =>
    injection heq with h1 h2
    rw [h1, h2]

/-- The separator at the head of the input is consumed whole. -/
theorem splitSep_sep (v : List Char) :
    splitSep (qc :: '=' :: '>' :: qc :: v) = [] :: splitSep v := rfl

/-- A quote-free run is a single piece for the separator split. -/
theorem splitSep_qfree : ∀ v : List Char, qc ∉ v → splitSep v = [v] := by
  intro v
  induction v with
  | nil => intro _; rfl
  | cons c rest ih =>
    intro hv
    have hc : c ≠ qc := fun h => hv (h ▸ List.mem_cons_self c rest)
    rw [splitSep_cons_ne c rest hc, ih (fun h => hv (List.mem_cons_of_mem _ h))]
    rfl

/-- A stripped encoded segment splits into exactly its key and value. -/
theorem splitSep_mid : ∀ (k v : List Char), qc ∉ k → qc ∉ v →
    splitSep (k ++ qc :: '=' :: '>' :: qc :: v) = [k, v] := by
  intro k
  induction k with
  | nil =>
    intro v _ hv
    rw [List.nil_append, splitSep_sep, splitSep_qfree v hv]
  | cons c rest ih =>
    intro v hk hv
    have hc : c ≠ qc := fun h => hk (h ▸ List.mem_cons_self c rest)
    rw [List.cons_append, splitSep_cons_ne _ _ hc,
      ih v (fun h => hk (List.mem_cons_of_mem _ h)) hv]
    rfl

/-- Decoding a stripped encoded segment yields its pair, with the `<br>`
substitution applied to the value. -/
theorem pairOfSeg_mid (k v : List Char) (hk : qc ∉ k) (hv : qc ∉ v) :
    pairOfSeg (k ++ qc :: '=' :: '>' :: qc :: v) = Except.ok (k, replBr v) := by
  unfold pairOfSeg
  rw [splitSep_mid k v hk hv]

/-- The effectful map over a mapped list fuses. -/
theorem mapE_map {ε α β γ : Type} (f : β → Except ε γ) (h : α → β) :
    ∀ l : List α, mapE f (l.map h) = mapE (fun x => f (h x)) l := by
  intro l
  induction l with
  | nil => rfl
  | cons x xs ih =>
    cases hfx : f (h x) with
    | error e => simp [mapE, hfx]
    | ok y => simp [mapE, hfx, ih]

/-- An effectful map all of whose elements succeed is the plain map. -/
theorem mapE_ok_of_all {ε α β : Type} (f : α → Except ε β) (g : α → β) :
    ∀ l : List α, (∀ x ∈ l, f x = Except.ok (g x)) →
      mapE f l = Except.ok (l.map g) := by
  intro l
  induction l with
  | nil => intro _; rfl
  | cons x xs ih =>
    intro h
    simp [mapE, h x (List.mem_cons_self _ _),
      ih (fun y hy => h y (List.mem_cons_of_mem _ hy))]

/-- Decoding an encoded valid non-empty pair list succeeds and yields the
dict of the pairs, with values subjected to the `<br>` substitution. -/
theorem decode_encode (ps : TagMap) (hne : ps ≠ []) (hv : ∀ kv ∈ ps, validKV kv) :
    parse_other_tags (some (encode ps)) = Except.ok (some (pyDict (brMap ps))) := by
  have h1 : sqb (encode ps) = ps.map encodePair := sqbAux_encode ps none hne hv
  have h2 : (ps.map encodePair).map stripQ
      = ps.map (fun kv => kv.1 ++ qc :: '=' :: '>' :: qc :: kv.2) := by
    rw [List.map_map]
    apply List.map_congr_left
    intro kv _
    exact stripQ_encodePair kv
  have h3 : decodeBlob (encode ps) = Except.ok (brMap ps) := by
    unfold decodeBlob
    rw [h1, h2, mapE_map]
    apply mapE_ok_of_all
    intro kv hkv
    obtain ⟨hk, hvq, _, _⟩ := hv kv hkv
    exact pairOfSeg_mid kv.1 kv.2 hk hvq
  show (decodeBlob (encode ps)).map (fun ps => some (pyDict ps)) = _
  rw [h3]
  rfl

/-- Choice with an empty right alternative. -/
theorem oor_none_right {α : Type u} (a : Option α) : oor a none = a := by
  cases a <;> rfl

/-- Choice is associative. -/
theorem oor_assoc {α : Type u} (a b c : Option α) :
    oor (oor a b) c = oor a (oor b c) := by
  cases a <;> cases b <;> rfl

/-- Overwriting the value of a present key makes it look up to the new
value. -/
theorem lookup_update (m : TagMap) (k v : List Char) (hmem : k ∈ m.map Prod.fst) :
    dictLookup k (m.map (fun kv => if kv.1 = k then (kv.1, v) else kv)) = some v := by
  induction m with
  | nil => simp at hmem
  | cons kv m ih =>
    by_cases hk : kv.1 = k
    · unfold dictLookup
      rw [List.map_cons, if_pos hk]
      rw [List.find?_cons_of_pos _ (by simpa using hk)]
      rfl
    · unfold dictLookup
      rw [List.map_cons, if_neg hk]
      rw [List.find?_cons_of_neg _ (by simpa using hk)]
      apply ih
      rw [List.map_cons] at hmem
      rcases List.mem_cons.mp hmem with h | h
      · exact absurd h.symm hk
      · exact h

/-- Appending a fresh key makes it look up to the appended value. -/
theorem lookup_append_new (m : TagMap) (k v : List Char)
    (hnone : ∀ kv ∈ m, kv.1 ≠ k) :
    dictLookup k (m ++ [(k, v)]) = some v := by
  induction m with
  | nil =>
    unfold dictLookup
    rw [List.nil_append, List.find?_cons_of_pos _ (by simp)]
    rfl
  | cons kv m ih =>
    unfold dictLookup
    rw [List.cons_append,
      List.find?_cons_of_neg _ (by simpa using hnone kv (List.mem_cons_self _ _))]
    exact ih (fun x hx => hnone x (List.mem_cons_of_mem _ hx))

/-- Overwriting one key's value leaves other keys' lookups unchanged. -/
theorem lookup_update_other (m : TagMap) (k v k2 : List Char) (hne : k2 ≠ k) :
    dictLookup k2 (m.map (fun kv => if kv.1 = k then (kv.1, v) else kv))
      = dictLookup k2 m := by
  induction m with
  | nil => rfl
  | cons kv m ih =>
    unfold dictLookup
    rw [List.map_cons]
    by_cases hk2 : kv.1 = k2
    · have hk : ¬(kv.1 = k) := fun h => hne (hk2.symm.trans h)
      rw [if_neg hk]
      rw [List.find?_cons_of_pos _ (by simpa using hk2),
        List.find?_cons_of_pos _ (by simpa using hk2)]
    · have hupd1 : ¬((if kv.1 = k then (kv.1, v) else kv).1 = k2) := by
        by_cases hk : kv.1 = k <;> simp [hk, hk2]
        exact fun h => hne h.symm
      rw [List.find?_cons_of_neg _ (by simpa using hupd1),
        List.find?_cons_of_neg _ (by simpa using hk2)]
      exact ih

/-- Appending one fresh key leaves other keys' lookups unchanged. -/
theorem lookup_append_other (m : TagMap) (k v k2 : List Char) (hne : k2 ≠ k) :
    dictLookup k2 (m ++ [(k, v)]) = dictLookup k2 m := by
  induction m with
  | nil =>
    unfold dictLookup
    rw [List.nil_append,
      List.find?_cons_of_neg _ (by simpa using fun h : k = k2 => hne h.symm)]
  | cons kv m ih =>
    unfold dictLookup
    rw [List.cons_append]
    by_cases hk2 : kv.1 = k2
    · rw [List.find?_cons_of_pos _ (by simpa using hk2),
        List.find?_cons_of_pos _ (by simpa using hk2)]
    · rw [List.find?_cons_of_neg _ (by simpa using hk2),
        List.find?_cons_of_neg _ (by simpa using hk2)]
      exact ih

/-- Inserting a key makes it look up to the inserted value. -/
theorem pyInsert_lookup_self (m : TagMap) (k v : List Char) :
    dictLookup k (pyInsert m k v) = some v := by
  unfold pyInsert
  by_cases hany : m.any (fun kv => decide (kv.1 = k)) = true
  · rw [if_pos hany]
    apply lookup_update
    rcases List.any_eq_true.mp hany with ⟨x, hx, hpx⟩
    exact List.mem_map.mpr ⟨x, hx, by simpa using hpx⟩
  · rw [if_neg hany]
    apply lookup_append_new
    intro kv hkv h
    exact hany (List.any_eq_true.mpr ⟨kv, hkv, by simpa using h⟩)

/-- Inserting one key leaves the lookup of any other key unchanged. -/
theorem pyInsert_lookup_other (m : TagMap) (k v k2 : List Char) (hne : k2 ≠ k) :
    dictLookup k2 (pyInsert m k v) = dictLookup k2 m := by
  unfold pyInsert
  by_cases hany : m.any (fun kv => decide (kv.1 = k)) = true
  · rw [if_pos hany]
    exact lookup_update_other m k v k2 hne
  · rw [if_neg hany]
    exact lookup_append_other m k v k2 hne

/-- The lookup into a dict built by folding insertions: the last matching
pair of the input wins, falling back to the accumulator. -/
theorem dictLookup_foldl : ∀ (ps acc : TagMap) (k : List Char),
    dictLookup k (List.foldl (fun m kv => pyInsert m kv.1 kv.2) acc ps)
      = oor (lastLookup k ps) (dictLookup k acc) := by
  intro ps
  induction ps with
  | nil => intro acc k; rfl
  | cons kv ps ih =>
    intro acc k
    rw [List.foldl_cons, ih (pyInsert acc kv.1 kv.2) k]
    rw [show lastLookup k (kv :: ps)
        = oor (lastLookup k ps) (if kv.1 = k then some kv.2 else none) from rfl]
    rw [oor_assoc]
    congr 1
    by_cases hk : kv.1 = k
    · subst hk
      rw [pyInsert_lookup_self, if_pos rfl]
      rfl
    · rw [pyInsert_lookup_other acc kv.1 kv.2 k (fun h => hk h.symm), if_neg hk]
      rfl

/-- Dict lookup is last-occurrence lookup on the raw pair list. -/
theorem dictLookup_pyDict (ps : TagMap) (k : List Char) :
    dictLookup k (pyDict ps) = lastLookup k ps := by
  unfold pyDict
  rw [dictLookup_foldl]
  rw [show dictLookup k ([] : TagMap) = none from rfl, oor_none_right]

/-- Inserting a present key leaves the key sequence unchanged. -/
theorem pyInsert_keys_mem (m : TagMap) (k v : List Char)
    (hany : m.any (fun kv => decide (kv.1 = k)) = true) :
    (pyInsert m k v).map Prod.fst = m.map Prod.fst := by
  unfold pyInsert
  rw [if_pos hany, List.map_map]
  apply List.map_congr_left
  intro kv _
  by_cases hk : kv.1 = k <;> simp [hk]

/-- Inserting a fresh key appends it to the key sequence. -/
theorem pyInsert_keys_new (m : TagMap) (k v : List Char)
    (hany : ¬(m.any (fun kv => decide (kv.1 = k)) = true)) :
    (pyInsert m k v).map Prod.fst = m.map Prod.fst ++ [k] := by
  unfold pyInsert
  rw [if_neg hany, List.map_append]
  rfl

/-- Insertion preserves key uniqueness. -/
theorem pyInsert_keys_nodup (m : TagMap) (k v : List Char)
    (h : (m.map Prod.fst).Nodup) : ((pyInsert m k v).map Prod.fst).Nodup := by
  by_cases hany : m.any (fun kv => decide (kv.1 = k)) = true
  · rw [pyInsert_keys_mem m k v hany]; exact h
  · rw [pyInsert_keys_new m k v hany]
    have hk : k ∉ m.map Prod.fst := by
      intro hmem
      rcases List.mem_map.mp hmem with ⟨x, hx, hfx⟩
      exact hany (List.any_eq_true.mpr ⟨x, hx, by simpa using hfx⟩)
    rw [List.nodup_append]
    refine ⟨h, List.nodup_singleton k, ?_⟩
    intro a ha hb
    rw [List.mem_singleton] at hb
    exact hk (hb ▸ ha)

/-- Folding insertions from a unique-keyed accumulator keeps keys unique. -/
theorem foldl_pyInsert_keys_nodup : ∀ (ps acc : TagMap), (acc.map Prod.fst).Nodup →
    ((List.foldl (fun m kv => pyInsert m kv.1 kv.2) acc ps).map Prod.fst).Nodup := by
  intro ps
  induction ps with
  | nil => intro acc h; exact h
  | cons kv ps ih =>
    intro acc h
    rw [List.foldl_cons]
    exact ih _ (pyInsert_keys_nodup acc kv.1 kv.2 h)

/-- A built dict has pairwise distinct keys. -/
theorem pyDict_keys_nodup (ps : TagMap) : ((pyDict ps).map Prod.fst).Nodup :=
  foldl_pyInsert_keys_nodup ps [] (by simp)

/-- Pairwise distinct keys bound the per-key pair count by one. -/
theorem countP_le_one_of_keys_nodup : ∀ (m : TagMap) (k : List Char),
    (m.map Prod.fst).Nodup → m.countP (fun kv => decide (kv.1 = k)) ≤ 1 := by
  intro m
  induction m with
  | nil => intro k _; simp
  | cons kv m ih =>
    intro k h
    rw [List.map_cons, List.nodup_cons] at h
    rw [List.countP_cons]
    by_cases hk : kv.1 = k
    · have hzero : m.countP (fun kv => decide (kv.1 = k)) = 0 := by
        rw [List.countP_eq_zero]
        intro x hx
        simp only [decide_eq_true_eq]
        intro hxk
        exact h.1 (List.mem_map.mpr ⟨x, hx, hxk.trans hk.symm⟩)
      simp [hk, hzero]
    · simp only [decide_eq_true_eq, if_neg hk, Nat.add_zero]
      exact ih k h.2

/-- A last-occurrence lookup misses exactly when no pair carries the key. -/
theorem lastLookup_none_iff : ∀ (ps : TagMap) (k : List Char),
    lastLookup k ps = none ↔ ∀ kv ∈ ps, kv.1 ≠ k := by
  intro ps k
  induction ps with
  | nil => simp [lastLookup]
  | cons kv ps ih =>
    rw [show lastLookup k (kv :: ps)
        = oor (lastLookup k ps) (if kv.1 = k then some kv.2 else none) from rfl]
    constructor
    · intro h
      have hA : lastLookup k ps = none := by
        cases hA : lastLookup k ps with
        | none => rfl
        | some v => rw [hA] at h; exact Option.noConfusion h
      have hB : (if kv.1 = k then some kv.2 else none) = none := by
        rw [hA] at h; exact h
      intro x hx
      rcases List.mem_cons.mp hx with h1 | h1
      · subst h1
        intro hk
        rw [if_pos hk] at hB
        exact Option.noConfusion hB
      · exact (ih.mp hA) x h1
    · intro h
      rw [ih.mpr (fun x hx => h x (List.mem_cons_of_mem _ hx))]
      rw [if_neg (h kv (List.mem_cons_self _ _))]
      rfl

/-- A key carried by some pair has a last-occurrence value. -/
theorem lastLookup_some_of_mem (ps : TagMap) (k : List Char)
    (h : ∃ kv ∈ ps, kv.1 = k) : ∃ v, lastLookup k ps = some v := by
  cases hL : lastLookup k ps with
  | some v => exact ⟨v, rfl⟩
  | none =>
    obtain ⟨kv, hkv, hk⟩ := h
    exact absurd hk ((lastLookup_none_iff ps k).mp hL kv hkv)

/-- Each pair of an insertion result takes its key from the map or the
inserted key, and its value from the map or the inserted value. -/
theorem pyInsert_mem (m : TagMap) (k v : List Char) (p : List Char × List Char)
    (hp : p ∈ pyInsert m k v) :
    (p.1 ∈ m.map Prod.fst ∨ p.1 = k) ∧ (p.2 ∈ m.map Prod.snd ∨ p.2 = v) := by
  unfold pyInsert at hp
  by_cases hany : m.any (fun kv => decide (kv.1 = k)) = true
  · rw [if_pos hany] at hp
    rcases List.mem_map.mp hp with ⟨x, hx, hfx⟩
    by_cases hk : x.1 = k
    · rw [if_pos hk] at hfx
      constructor
      · left; rw [← hfx]; exact List.mem_map.mpr ⟨x, hx, rfl⟩
      · right; rw [← hfx]
    · rw [if_neg hk] at hfx
      subst hfx
      exact ⟨Or.inl (List.mem_map.mpr ⟨x, hx, rfl⟩), Or.inl (List.mem_map.mpr ⟨x, hx, rfl⟩)⟩
  · rw [if_neg hany] at hp
    rcases List.mem_append.mp hp with h | h
    · exact ⟨Or.inl (List.mem_map.mpr ⟨p, h, rfl⟩), Or.inl (List.mem_map.mpr ⟨p, h, rfl⟩)⟩
    · have h2 := List.mem_singleton.mp h
      exact ⟨Or.inr (by rw [h2]), Or.inr (by rw [h2])⟩

/-- Keys of the insertion result are old keys or the inserted key. -/
theorem pyInsert_keys_sub (m : TagMap) (k v w : List Char)
    (hw : w ∈ (pyInsert m k v).map Prod.fst) : w ∈ m.map Prod.fst ∨ w = k := by
  rcases List.mem_map.mp hw with ⟨p, hp, hfp⟩
  rcases (pyInsert_mem m k v p hp).1 with h | h
  · left; rw [← hfp]; exact h
  · right; rw [← hfp]; exact h

/-- Values of the insertion result are old values or the inserted value. -/
theorem pyInsert_vals_sub (m : TagMap) (k v w : List Char)
    (hw : w ∈ (pyInsert m k v).map Prod.snd) : w ∈ m.map Prod.snd ∨ w = v := by
  rcases List.mem_map.mp hw with ⟨p, hp, hfp⟩
  rcases (pyInsert_mem m k v p hp).2 with h | h
  · left; rw [← hfp]; exact h
  · right; rw [← hfp]; exact h

/-- Keys of a fold of insertions come from the accumulator or the input. -/
theorem foldl_keys_sub : ∀ (ps acc : TagMap) (w : List Char),
    w ∈ (List.foldl (fun m kv => pyInsert m kv.1 kv.2) acc ps).map Prod.fst →
    w ∈ acc.map Prod.fst ∨ w ∈ ps.map Prod.fst := by
  intro ps
  induction ps with
  | nil => intro acc w hw; exact Or.inl hw
  | cons kv ps ih =>
    intro acc w hw
    rw [List.foldl_cons] at hw
    rcases ih (pyInsert acc kv.1 kv.2) w hw with h | h
    · rcases pyInsert_keys_sub acc kv.1 kv.2 w h with h2 | h2
      · exact Or.inl h2
      · right; rw [List.map_cons, h2]; exact List.mem_cons_self _ _
    · right; rw [List.map_cons]; exact List.mem_cons_of_mem _ h

/-- Values of a fold of insertions come from the accumulator or the input. -/
theorem foldl_vals_sub : ∀ (ps acc : TagMap) (w : List Char),
    w ∈ (List.foldl (fun m kv => pyInsert m kv.1 kv.2) acc ps).map Prod.snd →
    w ∈ acc.map Prod.snd ∨ w ∈ ps.map Prod.snd := by
  intro ps
  induction ps with
  | nil => intro acc w hw; exact Or.inl hw
  | cons kv ps ih =>
    intro acc w hw
    rw [List.foldl_cons] at hw
    rcases ih (pyInsert acc kv.1 kv.2) w hw with h | h
    · rcases pyInsert_vals_sub acc kv.1 kv.2 w h with h2 | h2
      · exact Or.inl h2
      · right; rw [List.map_cons, h2]; exact List.mem_cons_self _ _
    · right; rw [List.map_cons]; exact List.mem_cons_of_mem _ h

/-- Dict keys come from the input pairs. -/
theorem pyDict_keys_sub (ps : TagMap) (w : List Char)
    (hw : w ∈ (pyDict ps).map Prod.fst) : w ∈ ps.map Prod.fst := by
  rcases foldl_keys_sub ps [] w hw with h | h
  · simp at h
  · exact h

/-- Dict values come from the input pairs. -/
theorem pyDict_vals_sub (ps : TagMap) (w : List Char)
    (hw : w ∈ (pyDict ps).map Prod.snd) : w ∈ ps.map Prod.snd := by
  rcases foldl_vals_sub ps [] w hw with h | h
  · simp at h
  · exact h

/-- Insertion never empties a dict. -/
theorem pyInsert_ne_nil (m : TagMap) (k v : List Char) : pyInsert m k v ≠ [] := by
  unfold pyInsert
  by_cases hany : m.any (fun kv => decide (kv.1 = k)) = true
  · rw [if_pos hany]
    cases m with
    | nil => simp at hany
    | cons a m => simp
  · rw [if_neg hany]; simp

/-- A fold of insertions from a non-empty accumulator stays non-empty. -/
theorem foldl_pyInsert_ne_nil : ∀ (ps acc : TagMap), acc ≠ [] →
    List.foldl (fun m kv => pyInsert m kv.1 kv.2) acc ps ≠ [] := by
  intro ps
  induction ps with
  | nil => intro acc h; exact h
  | cons kv ps ih =>
    intro acc _
    rw [List.foldl_cons]
    exact ih _ (pyInsert_ne_nil acc kv.1 kv.2)

/-- The dict of a non-empty pair list is non-empty. -/
theorem pyDict_ne_nil (ps : TagMap) (h : ps ≠ []) : pyDict ps ≠ [] := by
  cases ps with
  | nil => cases h rfl
  | cons kv ps =>
    unfold pyDict
    rw [List.foldl_cons]
    exact foldl_pyInsert_ne_nil ps _ (pyInsert_ne_nil [] kv.1 kv.2)

/-- Folding insertions of pairs with keys fresh for the accumulator and
pairwise distinct just appends them. -/
theorem foldl_pyInsert_id : ∀ (rest acc : TagMap),
    (((acc ++ rest).map Prod.fst).Nodup) →
    List.foldl (fun m kv => pyInsert m kv.1 kv.2) acc rest = acc ++ rest := by
  intro rest
  induction rest with
  | nil => intro acc _; simp
  | cons kv rest ih =>
    intro acc h
    rw [List.foldl_cons]
    have hnotin : ¬(acc.any (fun x => decide (x.1 = kv.1)) = true) := by
      intro hany
      rcases List.any_eq_true.mp hany with ⟨x, hx, hpx⟩
      rw [List.map_append] at h
      have hdisj := (List.nodup_append.mp h).2.2
      have h1 : x.1 ∈ acc.map Prod.fst := List.mem_map.mpr ⟨x, hx, rfl⟩
      have h2 : x.1 ∈ (kv :: rest).map Prod.fst := by
        rw [List.map_cons, show x.1 = kv.1 from by simpa using hpx]
        exact List.mem_cons_self _ _
      exact hdisj h1 h2
    have hins : pyInsert acc kv.1 kv.2 = acc ++ [kv] := by
      unfold pyInsert
      rw [if_neg hnotin]
    have h2 : (((acc ++ [kv]) ++ rest).map Prod.fst).Nodup := by
      rw [show (acc ++ [kv]) ++ rest = acc ++ kv :: rest by simp]
      exact h
    rw [hins, ih (acc ++ [kv]) h2]
    simp

/-- A unique-keyed pair list is its own dict. -/
theorem pyDict_id_of_keys_nodup (m : TagMap) (h : (m.map Prod.fst).Nodup) :
    pyDict m = m := by
  have := foldl_pyInsert_id m [] (by simpa using h)
  simpa [pyDict] using this

/-- Substitution leaves keys unchanged. -/
theorem brMap_keys (ps : TagMap) : (brMap ps).map Prod.fst = ps.map Prod.fst := by
  unfold brMap
  rw [List.map_map]
  apply List.map_congr_left
  intro kv _
  rfl

/-- Substitution maps values pointwise. -/
theorem brMap_vals (ps : TagMap) :
    (brMap ps).map Prod.snd = (ps.map Prod.snd).map replBr := by
  unfold brMap
  rw [List.map_map, List.map_map]
  apply List.map_congr_left
  intro kv _
  rfl

/-- Substitution preserves non-emptiness. -/
theorem brMap_ne_nil (ps : TagMap) (h : ps ≠ []) : brMap ps ≠ [] := by
  cases ps with
  | nil => cases h rfl
  | cons kv ps => simp [brMap]

/-- Last-occurrence lookup commutes with the value substitution. -/
theorem lastLookup_brMap : ∀ (ps : TagMap) (k : List Char),
    lastLookup k (brMap ps) = (lastLookup k ps).map replBr := by
  intro ps
  induction ps with
  | nil => intro k; rfl
  | cons kv ps ih =>
    intro k
    rw [show brMap (kv :: ps) = (kv.1, replBr kv.2) :: brMap ps from rfl]
    rw [show lastLookup k ((kv.1, replBr kv.2) :: brMap ps)
        = oor (lastLookup k (brMap ps))
          (if kv.1 = k then some (replBr kv.2) else none) from rfl]
    rw [show lastLookup k (kv :: ps)
        = oor (lastLookup k ps) (if kv.1 = k then some kv.2 else none) from rfl]
    rw [ih k]
    have hmapoor : ∀ (a b : Option (List Char)),
        (oor a b).map replBr = oor (a.map replBr) (b.map replBr) := by
      intro a b; cases a <;> rfl
    rw [hmapoor]
    congr 1
    by_cases hk : kv.1 = k <;> simp [hk]

/-- Substitution is the identity on a list of already-substituted values. -/
theorem brMap_id_of_fixed : ∀ m : TagMap, (∀ kv ∈ m, replBr kv.2 = kv.2) →
    brMap m = m := by
  intro m
  induction m with
  | nil => intro _; rfl
  | cons kv m ih =>
    intro h
    show (kv.1, replBr kv.2) :: brMap m = kv :: m
    rw [h kv (List.mem_cons_self _ _), ih (fun x hx => h x (List.mem_cons_of_mem _ hx))]

/-- A `<br>` occurrence at the head is replaced whole. -/
theorem replBr_br (rest : List Char) :
    replBr ('<' :: 'b' :: 'r' :: '>' :: rest) = ' ' :: replBr rest := rfl

/-- A head that does not start a `<br>` occurrence is kept. -/
theorem replBr_cons (c : Char) (rest : List Char)
    (h : ¬(c = '<' ∧ rest.take 3 = ['b', 'r', '>'])) :
    replBr (c :: rest) = c :: replBr rest := by
  rw [replBr.eq_def]
  split
  · next heq => exact absurd heq (by simp)
  · next rest2 heq =>
    exfalso
    apply h
    injection heq with h1 h2
    exact ⟨h1, by rw [h2]; rfl⟩
  · next c2 rest2 heq =>
    injection heq with h1 h2
    rw [h1, h2]

/-- Decompose a list whose first three characters are `b`, `r`, `>`. -/
theorem take3_decomp (rest : List Char) (ht : rest.take 3 = ['b', 'r', '>']) :
    rest = 'b' :: 'r' :: '>' :: rest.drop 3 := by
  conv_lhs => rw [← List.take_append_drop 3 rest]
  rw [ht]
  rfl

/-- If the substituted text starts with `>`, so did the original. -/
theorem replBr_take1 : ∀ w : List Char, (replBr w).take 1 = ['>'] → w.take 1 = ['>'] := by
  intro w
  cases w with
  | nil => intro h; exact absurd h (by simp [replBr])
  | cons c rest =>
    by_cases hbr : c = '<' ∧ rest.take 3 = ['b', 'r', '>']
    · obtain ⟨hc, ht⟩ := hbr
      subst hc
      rw [take3_decomp rest ht, replBr_br]
      intro h
      have h1 : (' ' : Char) = '>' := (List.cons.inj h).1
      exact absurd h1 (by decide)
    · rw [replBr_cons c rest hbr]
      intro h
      have h1 : c = '>' := (List.cons.inj h).1
      show c :: rest.take 0 = ['>']
      rw [h1]
      rfl

/-- If the substituted text starts with `r>`, so did the original. -/
theorem replBr_take2 : ∀ w : List Char,
    (replBr w).take 2 = ['r', '>'] → w.take 2 = ['r', '>'] := by
  intro w
  cases w with
  | nil => intro h; exact absurd h (by simp [replBr])
  | cons c rest =>
    by_cases hbr : c = '<' ∧ rest.take 3 = ['b', 'r', '>']
    · obtain ⟨hc, ht⟩ := hbr
      subst hc
      rw [take3_decomp rest ht, replBr_br]
      intro h
      have h1 : (' ' : Char) = 'r' := (List.cons.inj h).1
      exact absurd h1 (by decide)
    · rw [replBr_cons c rest hbr]
      intro h
      have h1 : c = 'r' := (List.cons.inj h).1
      have h2 : (replBr rest).take 1 = ['>'] := (List.cons.inj h).2
      show c :: rest.take 1 = ['r', '>']
      rw [h1, replBr_take1 rest h2]

/-- If the substituted text starts with `br>`, so did the original. -/
theorem replBr_take3 : ∀ w : List Char,
    (replBr w).take 3 = ['b', 'r', '>'] → w.take 3 = ['b', 'r', '>'] := by
  intro w
  cases w with
  | nil => intro h; exact absurd h (by simp [replBr])
  | cons c rest =>
    by_cases hbr : c = '<' ∧ rest.take 3 = ['b', 'r', '>']
    · obtain ⟨hc, ht⟩ := hbr
      subst hc
      rw [take3_decomp rest ht, replBr_br]
      intro h
      have h1 : (' ' : Char) = 'b' := (List.cons.inj h).1
      exact absurd h1 (by decide)
    · rw [replBr_cons c rest hbr]
      intro h
      have h1 : c = 'b' := (List.cons.inj h).1
      have h2 : (replBr rest).take 2 = ['r', '>'] := (List.cons.inj h).2
      show c :: rest.take 2 = ['b', 'r', '>']
      rw [h1, replBr_take2 rest h2]

/-- The `<br>` substitution is idempotent (its output contains no further
occurrence of `<br>`). -/
theorem replBr_idem_aux : ∀ (n : Nat) (v : List Char), v.length ≤ n →
    replBr (replBr v) = replBr v := by
  intro n
  induction n with
  | zero =>
    intro v hv
    rw [List.eq_nil_of_length_eq_zero (Nat.le_zero.mp hv)]
    rfl
  | succ n ih =>
    intro v hv
    cases v with
    | nil => rfl
    | cons c rest =>
      by_cases hbr : c = '<' ∧ rest.take 3 = ['b', 'r', '>']
      · obtain ⟨hc, ht⟩ := hbr
        subst hc
        rw [take3_decomp rest ht, replBr_br]
        rw [replBr_cons ' ' _ (fun hcond => absurd hcond.1 (by decide))]
        rw [ih (rest.drop 3) (by simp at hv ⊢; omega)]
      · rw [replBr_cons c rest hbr]
        have h2 : ¬(c = '<' ∧ (replBr rest).take 3 = ['b', 'r', '>']) := by
          intro hcond
          exact hbr ⟨hcond.1, replBr_take3 rest hcond.2⟩
        rw [replBr_cons c (replBr rest) h2]
        rw [ih rest (by simp at hv ⊢; omega)]

/-- The `<br>` substitution applied twice is the substitution itself. -/
theorem replBr_idem (v : List Char) : replBr (replBr v) = replBr v :=
  replBr_idem_aux v.length v (Nat.le_refl _)

/-- The substitution of a non-empty string is non-empty. -/
theorem replBr_eq_nil : ∀ v : List Char, replBr v = [] → v = [] := by
  intro v
  cases v with
  | nil => intro _; rfl
  | cons c rest =>
    by_cases hbr : c = '<' ∧ rest.take 3 = ['b', 'r', '>']
    · obtain ⟨hc, ht⟩ := hbr
      subst hc
      rw [take3_decomp rest ht, replBr_br]
      intro h
      exact List.noConfusion h
    · rw [replBr_cons c rest hbr]
      intro h
      exact List.noConfusion h

/-- Only the lone comma substitutes to the lone comma. -/
theorem replBr_comma : ∀ v : List Char, replBr v = [','] → v = [','] := by
  intro v
  cases v with
  | nil => intro h; exact List.noConfusion h
  | cons c rest =>
    by_cases hbr : c = '<' ∧ rest.take 3 = ['b', 'r', '>']
    · obtain ⟨hc, ht⟩ := hbr
      subst hc
      rw [take3_decomp rest ht, replBr_br]
      intro h
      exact absurd (List.cons.inj h).1 (by decide)
    · rw [replBr_cons c rest hbr]
      intro h
      obtain ⟨h1, h2⟩ := List.cons.inj h
      rw [h1, replBr_eq_nil rest h2]

/-- The substitution introduces no quote characters. -/
theorem replBr_no_qc_aux : ∀ (n : Nat) (v : List Char), v.length ≤ n →
    qc ∉ v → qc ∉ replBr v := by
  intro n
  induction n with
  | zero =>
    intro v hv _
    rw [List.eq_nil_of_length_eq_zero (Nat.le_zero.mp hv)]
    simp [replBr]
  | succ n ih =>
    intro v hv hq
    cases v with
    | nil => simp [replBr]
    | cons c rest =>
      by_cases hbr : c = '<' ∧ rest.take 3 = ['b', 'r', '>']
      · obtain ⟨hc, ht⟩ := hbr
        subst hc
        rw [take3_decomp rest ht, replBr_br]
        intro hmem
        rcases List.mem_cons.mp hmem with h | h
        · exact absurd h (by decide)
        · have hq3 : qc ∉ rest.drop 3 := by
            intro hm
            apply hq
            apply List.mem_cons_of_mem
            rw [take3_decomp rest ht]
            exact List.mem_cons_of_mem _ (List.mem_cons_of_mem _ (List.mem_cons_of_mem _ hm))
          exact absurd h (ih (rest.drop 3) (by simp at hv ⊢; omega) hq3)
      · rw [replBr_cons c rest hbr]
        intro hmem
        rcases List.mem_cons.mp hmem with h | h
        · exact hq (h ▸ List.mem_cons_self c rest)
        · have hqrest : qc ∉ rest := fun hm => hq (List.mem_cons_of_mem _ hm)
          exact absurd h (ih rest (by simp at hv ⊢; omega) hqrest)

/-- A quote-free value stays quote-free under the substitution. -/
theorem replBr_no_qc (v : List Char) (h : qc ∉ v) : qc ∉ replBr v :=
  replBr_no_qc_aux v.length v (Nat.le_refl _) h

/-- C6 (amended): for every valid tag blob of at least one pair, decoding
succeeds and yields the dict of the pairs with `<br>` in values lossily
replaced by a space; re-encoding that mapping under the same convention and
decoding again recovers exactly the same mapping (a stable round trip); and
the recovered mapping is equivalent to the original pair list except for the
`<br>` substitution (each key looks up to its last value, substituted). The
zero-pair blob is excluded: the empty string does not decode (see the
counterexample). -/
theorem tag_roundtrip (ps : TagMap) (k : List Char) (hne : ps ≠ [])
    (hv : ∀ kv ∈ ps, validKV kv) :
    parse_other_tags (some (encode ps)) = Except.ok (some (pyDict (brMap ps))) ∧
    parse_other_tags (some (encode (pyDict (brMap ps))))
      = Except.ok (some (pyDict (brMap ps))) ∧
    dictLookup k (pyDict (brMap ps)) = (lastLookup k ps).map replBr := by
  have h1 : parse_other_tags (some (encode ps)) = Except.ok (some (pyDict (brMap ps))) :=
    decode_encode ps hne hv
  have hmv : ∀ kv ∈ pyDict (brMap ps), validKV kv := by
    intro kv hkv
    have hkey : kv.1 ∈ ps.map Prod.fst := by
      have := pyDict_keys_sub (brMap ps) kv.1 (List.mem_map.mpr ⟨kv, hkv, rfl⟩)
      rwa [brMap_keys ps] at this
    have hval : kv.2 ∈ (ps.map Prod.snd).map replBr := by
      have := pyDict_vals_sub (brMap ps) kv.2 (List.mem_map.mpr ⟨kv, hkv, rfl⟩)
      rwa [brMap_vals ps] at this
    rcases List.mem_map.mp hkey with ⟨kv0, hkv0, hk0⟩
    rcases List.mem_map.mp hval with ⟨v0, hv0mem, hv0⟩
    rcases List.mem_map.mp hv0mem with ⟨kv1, hkv1, hk1⟩
    obtain ⟨q1, _, n1, _⟩ := hv kv0 hkv0
    obtain ⟨_, q2, _, n2⟩ := hv kv1 hkv1
    refine ⟨?_, ?_, ?_, ?_⟩
    · rw [← hk0]; exact q1
    · rw [← hv0]; exact replBr_no_qc v0 (hk1 ▸ q2)
    · rw [← hk0]; exact n1
    · rw [← hv0]
      intro hcomma
      exact n2 (hk1.trans (replBr_comma v0 hcomma))
  have hmfix : ∀ kv ∈ pyDict (brMap ps), replBr kv.2 = kv.2 := by
    intro kv hkv
    have hval : kv.2 ∈ (ps.map Prod.snd).map replBr := by
      have := pyDict_vals_sub (brMap ps) kv.2 (List.mem_map.mpr ⟨kv, hkv, rfl⟩)
      rwa [brMap_vals ps] at this
    rcases List.mem_map.mp hval with ⟨v0, _, hv0⟩
    rw [← hv0, replBr_idem]
  have hmne : pyDict (brMap ps) ≠ [] := pyDict_ne_nil (brMap ps) (brMap_ne_nil ps hne)
  have h2 : parse_other_tags (some (encode (pyDict (brMap ps))))
      = Except.ok (some (pyDict (brMap ps))) := by
    have hd := decode_encode (pyDict (brMap ps)) hmne hmv
    rwa [brMap_id_of_fixed (pyDict (brMap ps)) hmfix,
      pyDict_id_of_keys_nodup (pyDict (brMap ps)) (pyDict_keys_nodup (brMap ps))] at hd
  refine ⟨h1, h2, ?_⟩
  rw [dictLookup_pyDict, lastLookup_brMap]

/-- Witness for C6's amended claim at a two-pair blob with a `<br>` value. -/
theorem tag_roundtrip_witness :
    parse_other_tags (some (encode [((['a']), (['x', '<', 'b', 'r', '>', 'y'])),
        ((['b']), (['z']))]))
      = Except.ok (some (pyDict (brMap [((['a']), (['x', '<', 'b', 'r', '>', 'y'])),
          ((['b']), (['z']))]))) ∧
    parse_other_tags (some (encode (pyDict (brMap [((['a']), (['x', '<', 'b', 'r', '>', 'y'])),
        ((['b']), (['z']))]))))
      = Except.ok (some (pyDict (brMap [((['a']), (['x', '<', 'b', 'r', '>', 'y'])),
          ((['b']), (['z']))]))) ∧
    dictLookup (['a']) (pyDict (brMap [((['a']), (['x', '<', 'b', 'r', '>', 'y'])),
        ((['b']), (['z']))]))
      = (lastLookup (['a']) [((['a']), (['x', '<', 'b', 'r', '>', 'y'])),
          ((['b']), (['z']))]).map replBr :=
  tag_roundtrip _ (['a']) (by decide) (by decide)

/-- C6 counterexample: the blob encoding zero pairs is the empty string,
and decoding it raises rather than yielding any mapping, so the round trip
fails for it — the claim's "zero or more pairs" domain is too wide. -/
theorem tag_roundtrip_counterexample :
    encode [] = [] ∧ parse_other_tags (some (encode [])) = Except.error () :=
  ⟨rfl, rfl⟩

/-- C10 (implicit): a key occurring in two or more well-formed pairs of a
blob decodes to exactly one entry of the mapping, whose value is the value
of the last occurrence in the blob (later pairs overwrite earlier ones),
subject to the `<br>` substitution. -/
theorem duplicate_keys_last_wins (ps : TagMap) (k : List Char) (hne : ps ≠ [])
    (hv : ∀ kv ∈ ps, validKV kv)
    (hdup : 2 ≤ ps.countP (fun kv => decide (kv.1 = k))) :
    parse_other_tags (some (encode ps)) = Except.ok (some (pyDict (brMap ps))) ∧
    (pyDict (brMap ps)).countP (fun kv => decide (kv.1 = k)) = 1 ∧
    dictLookup k (pyDict (brMap ps)) = (lastLookup k ps).map replBr := by
  refine ⟨decode_encode ps hne hv, ?_, ?_⟩
  · have hle := countP_le_one_of_keys_nodup (pyDict (brMap ps)) k (pyDict_keys_nodup (brMap ps))
    have hex : ∃ kv ∈ ps, kv.1 = k := by
      have hpos0 : 0 < ps.countP (fun kv => decide (kv.1 = k)) := by omega
      rcases List.countP_pos_iff.mp hpos0 with ⟨kv, hkv, hp⟩
      exact ⟨kv, hkv, by simpa using hp⟩
    obtain ⟨kv0, hkv0, hk0⟩ := hex
    have hexbr : ∃ kv ∈ brMap ps, kv.1 = k :=
      ⟨(kv0.1, replBr kv0.2), List.mem_map.mpr ⟨kv0, hkv0, rfl⟩, hk0⟩
    obtain ⟨v, hvlast⟩ := lastLookup_some_of_mem (brMap ps) k hexbr
    have hdl : dictLookup k (pyDict (brMap ps)) = some v := by
      rw [dictLookup_pyDict]
      exact hvlast
    have hpos : 0 < (pyDict (brMap ps)).countP (fun kv => decide (kv.1 = k)) := by
      unfold dictLookup at hdl
      cases hfind : (pyDict (brMap ps)).find? (fun kv => decide (kv.1 = k)) with
      | none => rw [hfind] at hdl; exact Option.noConfusion hdl
      | some p =>
        have hmem := List.mem_of_find?_eq_some hfind
        have hpa := List.find?_some hfind
        exact List.countP_pos_iff.mpr ⟨p, hmem, hpa⟩
    omega
  · rw [dictLookup_pyDict, lastLookup_brMap]

/-- Witness for C10 at a blob carrying the key `a` twice. -/
theorem duplicate_keys_last_wins_witness :
    parse_other_tags (some (encode [((['a']), (['x'])), ((['a']), (['y']))]))
      = Except.ok (some (pyDict (brMap [((['a']), (['x'])), ((['a']), (['y']))]))) ∧
    (pyDict (brMap [((['a']), (['x'])), ((['a']), (['y']))])).countP
        (fun kv => decide (kv.1 = (['a']))) = 1 ∧
    dictLookup (['a']) (pyDict (brMap [((['a']), (['x'])), ((['a']), (['y']))]))
      = (lastLookup (['a']) [((['a']), (['x'])), ((['a']), (['y']))]).map replBr :=
  duplicate_keys_last_wins _ (['a']) (by decide) (by decide) (by decide)
